import Mathlib

/-!
Verification of the Conway Game of Life implementation (`conway.py`).

The board is a Python `dict` mapping integer coordinate pairs to cell
states (`DEAD = 0`, `ALIVE = 1`).  We embed the dict as an association
list with unique keys: `board[c]` becomes `lookup` (returning `none`
where Python raises `KeyError`), `board[c] = v` becomes `setItem`
(replace in place when the key is present, append otherwise, matching
dict insertion-order semantics), and iteration over `board.items()`
becomes a left fold over the list.
-/

set_option autoImplicit false

namespace Conway

/-- Cell state `DEAD = 0` (`conway.py` line 20). -/
def DEAD : ℕ := 0

/-- Cell state `ALIVE = 1` (`conway.py` line 21). -/
def ALIVE : ℕ := 1

/-- A grid coordinate `(x, y)`: an ordered pair of integers. -/
abbrev Coord : Type := Int × Int

/-- A board: the Python `dict` from coordinates to cell states, embedded
as an association list in insertion order. -/
abbrev Board : Type := List (Coord × ℕ)

/-- The keys of a board, in insertion order. -/
def keysOf (b : Board) : List Coord := b.map Prod.fst

/-- Dict lookup `board[c]`: first entry whose key matches; `none` models
Python raising `KeyError`. -/
def lookup : Board → Coord → Option ℕ
  | [], _ => none
  | p :: rest, c => if p.1 = c then some p.2 else lookup rest c

/-- Dict assignment `board[c] = v`: if the key is present its value is
replaced in place, otherwise the pair is appended (Python dicts keep
insertion order). -/
def setItem (b : Board) (c : Coord) (v : ℕ) : Board :=
  if c ∈ keysOf b then b.map (fun p => if p.1 = c then (c, v) else p)
  else b ++ [(c, v)]

/-- Embeds `add_to_board` (`conway.py` lines 33-35): sets every point of
the pattern to `ALIVE`, in order. -/
def add_to_board (board : Board) (pattern : List Coord) : Board :=
  pattern.foldl (fun b point => setItem b point ALIVE) board

/-- Embeds `get_neighbours` (`conway.py` lines 38-47): the eight yielded
coordinates, in generator order. -/
def get_neighbours (point : Coord) : List Coord :=
  [(point.1 + 1, point.2), (point.1 + 1, point.2 + 1), (point.1, point.2 + 1),
   (point.1 - 1, point.2 + 1), (point.1 - 1, point.2), (point.1 - 1, point.2 - 1),
   (point.1, point.2 - 1), (point.1 + 1, point.2 - 1)]

/-- Embeds `new_board` (`conway.py` lines 98-105) for an explicit
`custom_size = (maxx, maxy)`: the dict comprehension
`{(x, y): DEAD for x in range(maxx) for y in range(maxy)}`.
The `custom_size is None` branch reads the terminal size (I/O) and is
outside the scope of the claims, which all pass an explicit size. -/
def new_board (custom_size : ℕ × ℕ) : Board :=
  (List.range custom_size.1).flatMap
    (fun (x : ℕ) => (List.range custom_size.2).map
      (fun (y : ℕ) => (((x : ℤ), (y : ℤ)), DEAD)))

/-- Embeds the neighbour-counting loop of `next_iteration`
(`conway.py` lines 63-73): for each of the eight neighbours, increment
the count when `board[neighbour] == ALIVE`; a `KeyError` (lookup
returning `none`) is passed over without incrementing. -/
def aliveNeighbours (board : Board) (c : Coord) : ℕ :=
  (get_neighbours c).foldl
    (fun n neighbour => if lookup board neighbour = some ALIVE then n + 1 else n) 0

/-- The body of the `for coord, alive in board.items()` loop of
`next_iteration` (`conway.py` lines 62-87), acting on the accumulated
`newboard`.  `if alive:` is Python integer truthiness (non-zero). -/
def life_step (board : Board) (newboard : Board) (ca : Coord × ℕ) : Board :=
  if ca.2 ≠ 0 then
    if aliveNeighbours board ca.1 = 0 ∨ aliveNeighbours board ca.1 = 1 then
      setItem newboard ca.1 DEAD
    else if aliveNeighbours board ca.1 = 2 ∨ aliveNeighbours board ca.1 = 3 then
      setItem newboard ca.1 ALIVE
    else setItem newboard ca.1 DEAD
  else
    if aliveNeighbours board ca.1 = 3 then setItem newboard ca.1 ALIVE
    else newboard

/-- Embeds `next_iteration` (`conway.py` lines 59-88): start from a blank
board of the given size and run the loop body over `board.items()`. -/
def next_iteration (board : Board) (custom_size : ℕ × ℕ) : Board :=
  board.foldl (life_step board) (new_board custom_size)

/-- The 2x2 block pattern whose lower-left cell is (x, y). -/
def blockCells (x y : ℤ) : List Coord := [(x, y), (x + 1, y), (x, y + 1), (x + 1, y + 1)]

/-- The three-cell diagonal line pattern starting at (x, y). -/
def diagCells (x y : ℤ) : List Coord := [(x, y), (x + 1, y + 1), (x + 2, y + 2)]

/-- A heap of allocated dicts; a reference is an index into the heap.
Used to state that `next_iteration` mutates only the dict it itself
allocates, never its input. -/
abbrev Store : Type := List Board

/-- Dereference: the dict held at reference `r`. -/
def readRef (s : Store) (r : ℕ) : Board := (s[r]?).getD []

/-- Overwrite the dict held at reference `r`. -/
def writeRef (s : Store) (r : ℕ) (b : Board) : Store := s.set r b

/-- Heap-level `newboard[c] = v`: mutates only the dict at `r`. -/
def setItemRef (s : Store) (r : ℕ) (c : Coord) (v : ℕ) : Store :=
  writeRef s r (setItem (readRef s r) c v)

/-- Heap-level loop body of `next_iteration` (`conway.py` lines 62-87):
every read of `board` goes through the heap at reference `br`, every
write (`newboard[coord] = ...`) goes to the dict at reference `nr`. -/
def life_stepRef (br nr : ℕ) (st : Store) (ca : Coord × ℕ) : Store :=
  if ca.2 ≠ 0 then
    if aliveNeighbours (readRef st br) ca.1 = 0 ∨
        aliveNeighbours (readRef st br) ca.1 = 1 then
      setItemRef st nr ca.1 DEAD
    else if aliveNeighbours (readRef st br) ca.1 = 2 ∨
        aliveNeighbours (readRef st br) ca.1 = 3 then
      setItemRef st nr ca.1 ALIVE
    else setItemRef st nr ca.1 DEAD
  else
    if aliveNeighbours (readRef st br) ca.1 = 3 then setItemRef st nr ca.1 ALIVE
    else st

/-- Heap-level `next_iteration` (`conway.py` lines 59-88): allocate a
fresh blank dict at a new reference (`newboard = new_board(...)`), fold
the loop body over the input dict's items, and return the heap together
with the reference to the new dict. -/
def next_iterationRef (s : Store) (br : ℕ) (custom_size : ℕ × ℕ) : Store × ℕ :=
  ((readRef (s ++ [new_board custom_size]) br).foldl
      (life_stepRef br s.length) (s ++ [new_board custom_size]),
    s.length)

/-- Error raised by `parse_file` on inconsistent line lengths: the Python
code reuses the builtin `FileNotFoundError` (`conway.py` line 123); the
spec classifies this condition as `InvalidPatternFormat`. -/
inductive PatternError : Type where
  | invalidPatternFormat : PatternError
deriving DecidableEq

/-- Models Python `str.strip()` as used in `parse_file` (`conway.py`
line 113): the line's characters with leading and trailing whitespace
(spaces, tabs, newlines) removed. -/
def strip (s : String) : List Char :=
  ((s.toList.dropWhile Char.isWhitespace).reverse.dropWhile Char.isWhitespace).reverse

/-- The pattern-collection loop of `parse_file` (`conway.py` lines
116-119): for each line (in order, characters including the trailing
newline), record `(char_no, line_no)` for every character equal to `@`. -/
def parse_pattern (lines : List String) : List Coord :=
  lines.enum.flatMap
    (fun lp => lp.2.toList.enum.filterMap
      (fun cp => if cp.2 = '@' then some ((cp.1 : ℤ), (lp.1 : ℤ)) else none))

/-- Embeds `parse_file` (`conway.py` lines 108-123) applied to the list
of lines returned by `readlines()` (each line keeps its trailing
newline; file I/O itself is outside the embedding).  All stripped line
lengths must coincide (`len(set(len(line.strip()) for line in lines))
== 1`); the returned board size is `(len(lines[0]), len(lines))` with
`lines[0]` unstripped. -/
def parse_file (lines : List String) : Except PatternError (List Coord × (ℕ × ℕ)) :=
  if (lines.map (fun line => (strip line).length)).dedup.length = 1 then
    Except.ok (parse_pattern lines, ((lines.headD "").length, lines.length))
  else Except.error PatternError.invalidPatternFormat

/-- Membership of a coordinate in the rectangle `[0, w) x [0, h)`. -/
def inRect (c : Coord) (w h : ℕ) : Prop :=
  0 ≤ c.1 ∧ c.1 < (w : ℤ) ∧ 0 ≤ c.2 ∧ c.2 < (h : ℤ)

instance inRect.decidable (c : Coord) (w h : ℕ) : Decidable (inRect c w h) := by
  unfold inRect
  infer_instance

/-- Spec-side definition, following the spec's words: the Moore
neighbourhood, the eight coordinates at Chebyshev distance 1. -/
def spec_moore (c : Coord) : List Coord :=
  [(c.1 - 1, c.2 - 1), (c.1 - 1, c.2), (c.1 - 1, c.2 + 1),
   (c.1, c.2 - 1), (c.1, c.2 + 1),
   (c.1 + 1, c.2 - 1), (c.1 + 1, c.2), (c.1 + 1, c.2 + 1)]

/-- Spec-side definition, following the claim's words: the number of the
eight Moore neighbours that are alive in the current board, a neighbour
coordinate absent from the board contributing zero. -/
def spec_live_count (b : Board) (c : Coord) : ℕ :=
  ((spec_moore c).filter (fun nb => decide (lookup b nb = some ALIVE))).length

/-- Spec-side definition, following the claim's words: the Game of Life
rule applied to a current state and a live-neighbour count.  Alive with
0 or 1 live neighbours dies, with 2 or 3 stays alive, with 4 or more
dies; dead with exactly 3 live neighbours becomes alive, otherwise
stays dead. -/
def spec_rule (state n : ℕ) : ℕ :=
  if state = ALIVE then
    if n = 0 ∨ n = 1 then DEAD
    else if n = 2 ∨ n = 3 then ALIVE
    else DEAD
  else
    if n = 3 then ALIVE else DEAD

/-- A well-formed board over the rectangle `[0, w) x [0, h)`: distinct
keys (a real Python dict), key set exactly the rectangle (stated through
finite quantifiers, so the predicate is decidable), and every stored
state `DEAD` or `ALIVE`. -/
def WellFormed (b : Board) (w h : ℕ) : Prop :=
  (keysOf b).Nodup ∧
    (∀ c ∈ keysOf b, inRect c w h) ∧
    (∀ c ∈ keysOf (new_board (w, h)), c ∈ keysOf b) ∧
    ∀ p ∈ b, p.2 = DEAD ∨ p.2 = ALIVE

/-- Python dict equality `==` between two boards: the total lookups agree
at every coordinate (stated through finite quantifiers over both key
sets, so the predicate is decidable; `boardEq_iff` below gives the
universal characterisation). -/
def boardEq (b1 b2 : Board) : Prop :=
  (∀ c ∈ keysOf b1, lookup b1 c = lookup b2 c) ∧
    ∀ c ∈ keysOf b2, lookup b1 c = lookup b2 c

/-- The alive cells of the board are exactly the coordinates of `A`
(stated through finite quantifiers, so the predicate is decidable;
`aliveSetIs_lookup` below gives the universal characterisation). -/
def AliveSetIs (b : Board) (A : List Coord) : Prop :=
  (∀ c ∈ keysOf b, (lookup b c = some ALIVE ↔ c ∈ A)) ∧
    ∀ c ∈ A, lookup b c = some ALIVE

instance WellFormed.decidable (b : Board) (w h : ℕ) : Decidable (WellFormed b w h) := by
  unfold WellFormed
  infer_instance

instance boardEq.decidable (b1 b2 : Board) : Decidable (boardEq b1 b2) := by
  unfold boardEq
  infer_instance

instance AliveSetIs.decidable (b : Board) (A : List Coord) : Decidable (AliveSetIs b A) := by
  unfold AliveSetIs
  infer_instance

theorem lookup_eq_none (b : Board) (c : Coord) : lookup b c = none ↔ c ∉ keysOf b := by
  induction b with
  | nil => simp [lookup, keysOf]
  | cons p rest ih =>
    simp only [lookup, keysOf, List.map_cons, List.mem_cons]
    by_cases hp : p.1 = c
    · simp [hp]
    · rw [if_neg hp]
      simp only [keysOf] at ih
      rw [ih]
      constructor
      · rintro hn (h1 | h2)
        · exact hp h1.symm
        · exact hn h2
      · intro hn h2
        exact hn (Or.inr h2)

theorem lookup_isSome_of_mem {b : Board} {c : Coord} (h : c ∈ keysOf b) :
    ∃ v, lookup b c = some v := by
  rcases ho : lookup b c with _ | v
  · exact absurd ((lookup_eq_none b c).mp ho) (fun hn => hn h)
  · exact ⟨v, rfl⟩

theorem mem_keysOf_of_lookup {b : Board} {c : Coord} {v : ℕ} (h : lookup b c = some v) :
    c ∈ keysOf b := by
  by_contra hn
  rw [(lookup_eq_none b c).mpr hn] at h
  exact Option.noConfusion h

theorem lookup_mem {b : Board} {c : Coord} {v : ℕ} (h : lookup b c = some v) : (c, v) ∈ b := by
  induction b with
  | nil => exact Option.noConfusion h
  | cons p rest ih =>
    by_cases hp : p.1 = c
    · simp only [lookup] at h
      rw [if_pos hp, Option.some.injEq] at h
      have hpv : p = (c, v) := by
        obtain ⟨p1, p2⟩ := p
        simp only at hp h
        rw [Prod.mk.injEq]
        exact ⟨hp, h⟩
      rw [hpv]
      exact List.mem_cons_self _ _
    · simp only [lookup] at h
      rw [if_neg hp] at h
      exact List.mem_cons_of_mem _ (ih h)

theorem lookup_append_left {b : Board} {c : Coord} {v : ℕ} (l : Board)
    (h : lookup b c = some v) : lookup (b ++ l) c = some v := by
  induction b with
  | nil => exact Option.noConfusion h
  | cons p rest ih =>
    simp only [lookup, List.cons_append] at h ⊢
    by_cases hp : p.1 = c
    · rw [if_pos hp] at h ⊢
      exact h
    · rw [if_neg hp] at h ⊢
      exact ih h

theorem lookup_append_right {b : Board} {c : Coord} (l : Board) (h : c ∉ keysOf b) :
    lookup (b ++ l) c = lookup l c := by
  induction b with
  | nil => simp
  | cons p rest ih =>
    simp only [keysOf, List.map_cons, List.mem_cons] at h
    push_neg at h
    simp only [lookup, List.cons_append]
    rw [if_neg (fun hh => h.1 hh.symm)]
    exact ih (by simpa [keysOf] using h.2)

theorem lookup_map_update (c : Coord) (v : ℕ) (b : Board) (c2 : Coord) :
    lookup (b.map (fun p => if p.1 = c then (c, v) else p)) c2 =
      if c2 = c then (if c ∈ keysOf b then some v else none) else lookup b c2 := by
  induction b with
  | nil => simp [lookup, keysOf]
  | cons p rest ih =>
    simp only [List.map_cons]
    by_cases hp : p.1 = c
    · rw [if_pos hp]
      by_cases hc2 : c2 = c
      · subst hc2
        simp [lookup, keysOf, hp]
      · have hc2s : ¬c = c2 := fun hh => hc2 hh.symm
        have hpc2 : ¬p.1 = c2 := by rw [hp]; exact hc2s
        simp [lookup, hc2, hc2s, hpc2, ih]
    · have hps : ¬c = p.1 := fun hh => hp hh.symm
      by_cases hc2 : c2 = c
      · subst hc2
        rw [if_neg hp]
        simp only [lookup]
        rw [if_neg hp, ih]
        by_cases hm : c2 ∈ keysOf rest
        · have hm2 : c2 ∈ keysOf (p :: rest) := by
            show c2 ∈ p.1 :: keysOf rest
            exact List.mem_cons_of_mem _ hm
          simp [hm, hm2]
        · have hm2 : c2 ∉ keysOf (p :: rest) := by
            show c2 ∉ p.1 :: keysOf rest
            intro hmem
            rcases List.mem_cons.mp hmem with h1 | h2
            · exact hps h1
            · exact hm h2
          simp [hm, hm2, hp]
      · simp [lookup, hc2, hp, ih]

theorem lookup_setItem (b : Board) (c : Coord) (v : ℕ) (c2 : Coord) :
    lookup (setItem b c v) c2 = if c2 = c then some v else lookup b c2 := by
  unfold setItem
  by_cases h : c ∈ keysOf b
  · rw [if_pos h, lookup_map_update, if_pos h]
  · rw [if_neg h]
    by_cases hc2 : c2 = c
    · subst hc2
      rw [if_pos rfl, lookup_append_right _ h]
      simp [lookup]
    · rw [if_neg hc2]
      by_cases hmem : c2 ∈ keysOf b
      · obtain ⟨w, hw⟩ := lookup_isSome_of_mem hmem
        rw [hw]
        exact lookup_append_left _ hw
      · rw [(lookup_eq_none b c2).mpr hmem, lookup_append_right _ hmem]
        simp only [lookup]
        rw [if_neg (fun hh : c = c2 => hc2 hh.symm)]

theorem keysOf_setItem_of_mem {b : Board} {c : Coord} (v : ℕ) (h : c ∈ keysOf b) :
    keysOf (setItem b c v) = keysOf b := by
  unfold setItem
  rw [if_pos h]
  unfold keysOf
  rw [List.map_map]
  apply List.map_congr_left
  intro p _
  by_cases hp : p.1 = c <;> simp [hp]

theorem keysOf_setItem_of_not_mem {b : Board} {c : Coord} (v : ℕ) (h : c ∉ keysOf b) :
    keysOf (setItem b c v) = keysOf b ++ [c] := by
  unfold setItem
  rw [if_neg h]
  simp [keysOf]

theorem new_board_def (w h : ℕ) :
    new_board (w, h) =
      (List.range w).flatMap
        (fun (x : ℕ) => (List.range h).map
          (fun (y : ℕ) => (((x : ℤ), (y : ℤ)), DEAD))) := rfl

theorem mem_new_board (w h : ℕ) (p : Coord × ℕ) :
    p ∈ new_board (w, h) ↔ inRect p.1 w h ∧ p.2 = DEAD := by
  obtain ⟨⟨a, b⟩, v⟩ := p
  rw [new_board_def]
  constructor
  · intro hp
    rw [List.mem_flatMap] at hp
    obtain ⟨x, hx, hp⟩ := hp
    rw [List.mem_map] at hp
    obtain ⟨y, hy, hp⟩ := hp
    rw [List.mem_range] at hx hy
    rw [Prod.mk.injEq, Prod.mk.injEq] at hp
    obtain ⟨⟨ha, hb⟩, hv⟩ := hp
    exact ⟨⟨show (0 : ℤ) ≤ a by omega, show a < (w : ℤ) by omega,
      show (0 : ℤ) ≤ b by omega, show b < (h : ℤ) by omega⟩, hv.symm⟩
  · rintro ⟨⟨h1, h2, h3, h4⟩, hv⟩
    have ha1 : 0 ≤ a := h1
    have ha2 : a < (w : ℤ) := h2
    have hb1 : 0 ≤ b := h3
    have hb2 : b < (h : ℤ) := h4
    subst hv
    rw [List.mem_flatMap]
    refine ⟨a.toNat, ?_, ?_⟩
    · rw [List.mem_range]
      omega
    · rw [List.mem_map]
      refine ⟨b.toNat, ?_, ?_⟩
      · rw [List.mem_range]
        omega
      · rw [Prod.mk.injEq, Prod.mk.injEq]
        refine ⟨⟨?_, ?_⟩, rfl⟩ <;> omega

theorem mem_keysOf_new_board (w h : ℕ) (c : Coord) :
    c ∈ keysOf (new_board (w, h)) ↔ inRect c w h := by
  simp only [keysOf, List.mem_map]
  constructor
  · rintro ⟨p, hp, rfl⟩
    exact ((mem_new_board w h p).mp hp).1
  · intro hc
    exact ⟨(c, DEAD), (mem_new_board w h (c, DEAD)).mpr ⟨hc, rfl⟩, rfl⟩

theorem lookup_new_board (w h : ℕ) (c : Coord) :
    lookup (new_board (w, h)) c = if inRect c w h then some DEAD else none := by
  by_cases hc : inRect c w h
  · rw [if_pos hc]
    obtain ⟨v, hv⟩ := lookup_isSome_of_mem ((mem_keysOf_new_board w h c).mpr hc)
    have hd : v = DEAD := ((mem_new_board w h (c, v)).mp (lookup_mem hv)).2
    rw [hv, hd]
  · rw [if_neg hc, (lookup_eq_none _ c).mpr]
    intro hmem
    exact hc ((mem_keysOf_new_board w h c).mp hmem)

theorem nodup_keysOf_new_board (w h : ℕ) : (keysOf (new_board (w, h))).Nodup := by
  have hk : keysOf (new_board (w, h)) =
      (List.range w).flatMap
        (fun (x : ℕ) => (List.range h).map (fun (y : ℕ) => ((x : ℤ), (y : ℤ)))) := by
    rw [new_board_def, keysOf, List.map_flatMap]
    apply congrArg
    funext x
    rw [List.map_map]
    rfl
  rw [hk, List.nodup_flatMap]
  constructor
  · intro x _
    exact (List.nodup_range h).map (fun a b hab => by
      have := congrArg Prod.snd hab
      simpa using this)
  · have hr : (List.range w).Nodup := List.nodup_range w
    refine List.Pairwise.imp ?_ (List.nodup_range w)
    intro a b hab
    intro c hca hcb
    simp only [List.mem_map] at hca hcb
    obtain ⟨y1, _, hy1⟩ := hca
    obtain ⟨y2, _, hy2⟩ := hcb
    apply hab
    have h1 := congrArg Prod.fst hy1
    have h2 := congrArg Prod.fst hy2
    simp only at h1 h2
    have : (a : ℤ) = (b : ℤ) := by rw [h1, ← h2]
    exact_mod_cast this

theorem wellFormed_keys {b : Board} {w h : ℕ} (hwf : WellFormed b w h) (c : Coord) :
    c ∈ keysOf b ↔ inRect c w h :=
  ⟨fun hc => hwf.2.1 c hc,
    fun hr => hwf.2.2.1 c ((mem_keysOf_new_board w h c).mpr hr)⟩

theorem boardEq_iff (b1 b2 : Board) :
    boardEq b1 b2 ↔ ∀ c, lookup b1 c = lookup b2 c := by
  constructor
  · intro hpair c
    by_cases h1 : c ∈ keysOf b1
    · exact hpair.1 c h1
    · by_cases h2 : c ∈ keysOf b2
      · exact hpair.2 c h2
      · rw [(lookup_eq_none b1 c).mpr h1, (lookup_eq_none b2 c).mpr h2]
  · intro heq
    exact ⟨fun c _ => heq c, fun c _ => heq c⟩

theorem aliveSetIs_lookup {b : Board} {A : List Coord} (ha : AliveSetIs b A) (c : Coord) :
    lookup b c = some ALIVE ↔ c ∈ A := by
  constructor
  · intro hal
    exact (ha.1 c (mem_keysOf_of_lookup hal)).mp hal
  · intro hc
    exact ha.2 c hc

theorem lookup_life_step_ne {board acc : Board} {ca : Coord × ℕ} {c : Coord}
    (hne : c ≠ ca.1) : lookup (life_step board acc ca) c = lookup acc c := by
  unfold life_step
  split_ifs <;> simp [lookup_setItem, hne]

theorem foldl_life_step_not_mem {board : Board} (items : List (Coord × ℕ)) (acc : Board)
    {c : Coord} (hc : c ∉ keysOf items) :
    lookup (items.foldl (life_step board) acc) c = lookup acc c := by
  induction items generalizing acc with
  | nil => rfl
  | cons ca rest ih =>
    have hc1 : c ∉ keysOf rest := by
      intro hh
      exact hc (List.mem_cons_of_mem _ hh)
    have hne : c ≠ ca.1 := by
      intro hh
      apply hc
      show c ∈ ca.1 :: keysOf rest
      rw [hh]
      exact List.mem_cons_self _ _
    rw [List.foldl_cons, ih _ hc1, lookup_life_step_ne hne]

theorem foldl_life_step_lookup (board : Board) {items : List (Coord × ℕ)}
    (hnd : (keysOf items).Nodup) (acc : Board) {c : Coord} {v : ℕ}
    (hcv : (c, v) ∈ items) :
    lookup (items.foldl (life_step board) acc) c =
      if v ≠ 0 then
        some (if aliveNeighbours board c = 2 ∨ aliveNeighbours board c = 3
          then ALIVE else DEAD)
      else if aliveNeighbours board c = 3 then some ALIVE
      else lookup acc c := by
  induction items generalizing acc with
  | nil => exact absurd hcv (List.not_mem_nil _)
  | cons ca rest ih =>
    have hnd1 : (keysOf rest).Nodup := (List.nodup_cons.mp hnd).2
    have hhead : ca.1 ∉ keysOf rest := (List.nodup_cons.mp hnd).1
    rcases List.mem_cons.mp hcv with heq | hrest
    · have hca1 : ca.1 = c := by rw [← heq]
      have hca2 : ca.2 = v := by rw [← heq]
      have hcnotin : c ∉ keysOf rest := by
        rw [← hca1]
        exact hhead
      rw [List.foldl_cons, foldl_life_step_not_mem rest _ hcnotin]
      unfold life_step
      rw [hca1, hca2]
      split_ifs <;> simp [lookup_setItem] <;> omega
    · have hcmem : c ∈ keysOf rest := by
        have := List.mem_map_of_mem Prod.fst hrest
        simpa [keysOf] using this
      have hne : c ≠ ca.1 := by
        intro hh
        rw [hh] at hcmem
        exact hhead hcmem
      rw [List.foldl_cons, ih hnd1 _ hrest, lookup_life_step_ne hne]

theorem keysOf_life_step_of_mem {board acc : Board} {ca : Coord × ℕ}
    (h : ca.1 ∈ keysOf acc) : keysOf (life_step board acc ca) = keysOf acc := by
  unfold life_step
  split_ifs <;> first | rfl | rw [keysOf_setItem_of_mem _ h]

theorem keysOf_foldl_life_step {board : Board} (items : List (Coord × ℕ)) (acc : Board)
    (hsub : ∀ p ∈ items, p.1 ∈ keysOf acc) :
    keysOf (items.foldl (life_step board) acc) = keysOf acc := by
  induction items generalizing acc with
  | nil => rfl
  | cons ca rest ih =>
    have hca : ca.1 ∈ keysOf acc := hsub ca (List.mem_cons_self _ _)
    have hacc2 : keysOf (life_step board acc ca) = keysOf acc :=
      keysOf_life_step_of_mem hca
    rw [List.foldl_cons, ih _ (fun p hp => by
      rw [hacc2]
      exact hsub p (List.mem_cons_of_mem _ hp)), hacc2]

theorem keysOf_next_iteration {b : Board} {w h : ℕ}
    (hsub : ∀ c ∈ keysOf b, inRect c w h) :
    keysOf (next_iteration b (w, h)) = keysOf (new_board (w, h)) := by
  unfold next_iteration
  exact keysOf_foldl_life_step b _ (fun p hp =>
    (mem_keysOf_new_board w h p.1).mpr
      (hsub p.1 (List.mem_map_of_mem Prod.fst hp)))

theorem next_iteration_lookup_not_mem (b : Board) (sz : ℕ × ℕ) {c : Coord}
    (hc : c ∉ keysOf b) :
    lookup (next_iteration b sz) c = lookup (new_board sz) c :=
  foldl_life_step_not_mem b (new_board sz) hc

theorem next_iteration_lookup_mem {b : Board} {w h : ℕ} (hnd : (keysOf b).Nodup)
    {c : Coord} {v : ℕ} (hv : lookup b c = some v) (hrect : inRect c w h) :
    lookup (next_iteration b (w, h)) c =
      if v ≠ 0 then
        some (if aliveNeighbours b c = 2 ∨ aliveNeighbours b c = 3 then ALIVE else DEAD)
      else if aliveNeighbours b c = 3 then some ALIVE
      else some DEAD := by
  unfold next_iteration
  rw [foldl_life_step_lookup b hnd _ (lookup_mem hv), lookup_new_board, if_pos hrect]

theorem foldl_count (p : Coord → Prop) [DecidablePred p] (l : List Coord) (n : ℕ) :
    l.foldl (fun m nb => if p nb then m + 1 else m) n =
      n + l.countP (fun nb => decide (p nb)) := by
  induction l generalizing n with
  | nil => simp
  | cons a rest ih =>
    rw [List.foldl_cons, List.countP_cons]
    by_cases ha : p a <;> simp [ha, ih] <;> omega

theorem aliveNeighbours_eq_countP (b : Board) (c : Coord) :
    aliveNeighbours b c =
      (get_neighbours c).countP (fun nb => decide (lookup b nb = some ALIVE)) := by
  unfold aliveNeighbours
  rw [foldl_count (fun nb => lookup b nb = some ALIVE)]
  simp

theorem spec_live_count_eq (b : Board) (c : Coord) :
    spec_live_count b c = aliveNeighbours b c := by
  rw [aliveNeighbours_eq_countP]
  unfold spec_live_count spec_moore get_neighbours
  rw [← List.countP_eq_length_filter]
  simp only [List.countP_cons, List.countP_nil]
  ac_rfl

/-- C1: for every well-formed board and every coordinate in its rectangle,
the state of that coordinate in the advanced board equals the Game of
Life rule applied to its current state and its live Moore-neighbour
count in the unmodified input board (an alive cell with 0 or 1 live
neighbours dies, with 2 or 3 survives, with 4 or more dies; a dead cell
with exactly 3 live neighbours becomes alive and otherwise stays dead;
absent neighbour coordinates contribute zero to the count). -/
theorem next_iteration_matches_spec_rule (w h : ℕ) (b : Board) (c : Coord) (v : ℕ)
    (hwf : WellFormed b w h) (hc : inRect c w h) (hv : lookup b c = some v) :
    lookup (next_iteration b (w, h)) c = some (spec_rule v (spec_live_count b c)) := by
  have hval : v = DEAD ∨ v = ALIVE := hwf.2.2.2 (c, v) (lookup_mem hv)
  rw [next_iteration_lookup_mem hwf.1 hv hc, spec_live_count_eq]
  rcases hval with hval | hval
  · subst hval
    unfold spec_rule
    simp only [DEAD, ALIVE]
    split_ifs <;> first | rfl | omega | simp_all
  · subst hval
    unfold spec_rule
    simp only [DEAD, ALIVE]
    split_ifs <;> first | rfl | omega | simp_all

/-- Witness for C1: a 2x2 board with a single alive cell at the origin. -/
theorem next_iteration_matches_spec_rule_witness :
    lookup (next_iteration (add_to_board (new_board (2, 2)) [(0, 0)]) (2, 2)) (0, 0) =
      some (spec_rule 1
        (spec_live_count (add_to_board (new_board (2, 2)) [(0, 0)]) (0, 0))) :=
  next_iteration_matches_spec_rule 2 2 (add_to_board (new_board (2, 2)) [(0, 0)])
    (0, 0) 1 (by decide) (by decide) (by decide)

/-- C2: advancing a well-formed board with the matching size yields a
board whose key set is exactly the same rectangle, and every coordinate
of the rectangle has a defined state, `DEAD` or `ALIVE`, in the result. -/
theorem next_iteration_total (w h : ℕ) (b : Board) (hwf : WellFormed b w h) :
    (∀ c, c ∈ keysOf (next_iteration b (w, h)) ↔ inRect c w h) ∧
      ∀ c, inRect c w h →
        lookup (next_iteration b (w, h)) c = some DEAD ∨
          lookup (next_iteration b (w, h)) c = some ALIVE := by
  have hkeq := keysOf_next_iteration (b := b) (fun c hc => hwf.2.1 c hc)
  constructor
  · intro c
    rw [hkeq, mem_keysOf_new_board]
  · intro c hc
    obtain ⟨v, hv⟩ := lookup_isSome_of_mem ((wellFormed_keys hwf c).mpr hc)
    rw [next_iteration_lookup_mem hwf.1 hv hc]
    split_ifs <;> simp

/-- Witness for C2: the blank 2x2 board. -/
theorem next_iteration_total_witness :
    (∀ c, c ∈ keysOf (next_iteration (new_board (2, 2)) (2, 2)) ↔ inRect c 2 2) ∧
      ∀ c, inRect c 2 2 →
        lookup (next_iteration (new_board (2, 2)) (2, 2)) c = some DEAD ∨
          lookup (next_iteration (new_board (2, 2)) (2, 2)) c = some ALIVE :=
  next_iteration_total 2 2 (new_board (2, 2)) (by decide)

/-- C3: for every coordinate, get_neighbours returns exactly the eight
coordinates at Chebyshev distance 1, in exactly the order (x+1,y),
(x+1,y+1), (x,y+1), (x-1,y+1), (x-1,y), (x-1,y-1), (x,y-1), (x+1,y-1),
for all positions with no bounds filtering. -/
theorem get_neighbours_spec (x y : ℤ) :
    get_neighbours (x, y) =
      [(x + 1, y), (x + 1, y + 1), (x, y + 1), (x - 1, y + 1),
       (x - 1, y), (x - 1, y - 1), (x, y - 1), (x + 1, y - 1)] ∧
      ∀ p : Coord, p ∈ get_neighbours (x, y) ↔
        max (p.1 - x).natAbs (p.2 - y).natAbs = 1 := by
  constructor
  · rfl
  · intro p
    obtain ⟨a, b⟩ := p
    simp only [get_neighbours, List.mem_cons, List.not_mem_nil, or_false, Prod.mk.injEq]
    omega

/-- C5: parsing the two-line file with lines "@-" and "-@" (as returned
by readlines, so the first line is the three characters at-dash-newline)
yields the live coordinates (0,0) and (1,1), but board dimensions
(3,2), not (2,2): the width is the untrimmed length of the first line
and includes its trailing newline, although the consistency check just
above uses stripped lengths. -/
theorem parse_file_two_line_file :
    parse_file ["@-\n", "-@\n"] =
      Except.ok ([((0 : ℤ), (0 : ℤ)), ((1 : ℤ), (1 : ℤ))], (3, 2)) ∧
      ((3, 2) : ℕ × ℕ) ≠ (2, 2) := by
  constructor
  · rfl
  · decide

/-- C6: parsing lines among which two have different stripped lengths
(in particular one line shorter than the others) returns the
invalid-pattern error, and produces no pattern and no board size. -/
theorem parse_file_inconsistent (lines : List String)
    (hbad : ∃ l1 ∈ lines, ∃ l2 ∈ lines, (strip l1).length ≠ (strip l2).length) :
    parse_file lines = Except.error PatternError.invalidPatternFormat := by
  obtain ⟨l1, h1, l2, h2, hne⟩ := hbad
  unfold parse_file
  rw [if_neg]
  intro hlen
  have m1 : (strip l1).length ∈ (lines.map (fun line => (strip line).length)).dedup := by
    rw [List.mem_dedup]
    exact List.mem_map_of_mem _ h1
  have m2 : (strip l2).length ∈ (lines.map (fun line => (strip line).length)).dedup := by
    rw [List.mem_dedup]
    exact List.mem_map_of_mem _ h2
  rcases hd : (lines.map (fun line => (strip line).length)).dedup with _ | ⟨a, rest⟩
  · rw [hd] at m1
    exact List.not_mem_nil _ m1
  · rw [hd] at hlen m1 m2
    have hr : rest = [] := List.length_eq_zero.mp (by simpa using hlen)
    subst hr
    rw [List.mem_singleton] at m1 m2
    exact hne (m1.trans m2.symm)

/-- Witness for C6: a two-line file whose second line is shorter. -/
theorem parse_file_inconsistent_witness :
    parse_file ["@-\n", "-\n"] = Except.error PatternError.invalidPatternFormat :=
  parse_file_inconsistent ["@-\n", "-\n"]
    ⟨"@-\n", by decide, "-\n", by decide, by decide⟩

theorem lookup_add_to_board_not_mem (pattern : List Coord) (b : Board) {p : Coord}
    (hp : p ∉ pattern) : lookup (add_to_board b pattern) p = lookup b p := by
  induction pattern generalizing b with
  | nil => rfl
  | cons q rest ih =>
    have hq : p ≠ q := by
      intro hh
      rw [hh] at hp
      exact hp (List.mem_cons_self _ _)
    have hrest : p ∉ rest := fun hh => hp (List.mem_cons_of_mem _ hh)
    show lookup (add_to_board (setItem b q ALIVE) rest) p = lookup b p
    rw [ih _ hrest, lookup_setItem, if_neg hq]

theorem lookup_add_to_board_mem (pattern : List Coord) (b : Board) {p : Coord}
    (hp : p ∈ pattern) : lookup (add_to_board b pattern) p = some ALIVE := by
  induction pattern generalizing b with
  | nil => exact absurd hp (List.not_mem_nil _)
  | cons q rest ih =>
    show lookup (add_to_board (setItem b q ALIVE) rest) p = some ALIVE
    by_cases hrest : p ∈ rest
    · exact ih _ hrest
    · have hq : p = q := by
        rcases List.mem_cons.mp hp with h | h
        · exact h
        · exact absurd h hrest
      rw [lookup_add_to_board_not_mem rest _ hrest, lookup_setItem, if_pos hq]

/-- C7: advancing any board mapping, including malformed ones with
missing in-rectangle coordinates, cannot fail: iteration is driven only
by the keys actually present (a coordinate absent from the input keeps
its blank-board value in the result, so nothing is read from a missing
cell), and the live-neighbour count equals the number of the eight
neighbours whose lookup succeeds with ALIVE — a neighbour lookup that
misses contributes zero instead of raising. -/
theorem next_iteration_malformed_safe (b : Board) (sz : ℕ × ℕ) :
    (∀ c, c ∉ keysOf b → lookup (next_iteration b sz) c = lookup (new_board sz) c) ∧
      ∀ c, aliveNeighbours b c =
        ((get_neighbours c).filter (fun nb => decide (lookup b nb = some ALIVE))).length := by
  constructor
  · intro c hc
    exact next_iteration_lookup_not_mem b sz hc
  · intro c
    rw [aliveNeighbours_eq_countP, List.countP_eq_length_filter]

/-- Witness for C7: a malformed 3x3 board holding only two of its nine
coordinates; the missing coordinate (1,1) takes the blank board's value. -/
theorem next_iteration_malformed_safe_witness :
    lookup
        (next_iteration [(((0 : ℤ), (0 : ℤ)), ALIVE), (((2 : ℤ), (2 : ℤ)), ALIVE)] (3, 3))
        (1, 1) =
      lookup (new_board (3, 3)) (1, 1) :=
  (next_iteration_malformed_safe
    [(((0 : ℤ), (0 : ℤ)), ALIVE), (((2 : ℤ), (2 : ℤ)), ALIVE)] (3, 3)).1
    (1, 1) (by decide)

/-- C10: every seeded coordinate, in particular one outside the board's
rectangle, is silently stored as alive; on the 3x3 board seeded with
(2,0), (2,1), (2,2) and the out-of-rectangle (3,1), the cell (3,1) is
alive in the mapping, it raises the live-neighbour count of the
in-rectangle cell (2,1) from 2 to 3, and the advanced board contains the
key (3,1), alive, outside the rectangle, so the result's key set exceeds
the rectangle. -/
theorem add_to_board_out_of_rect :
    (∀ (b : Board) (pattern : List Coord) (p : Coord), p ∈ pattern →
        lookup (add_to_board b pattern) p = some ALIVE) ∧
      (¬inRect (3, 1) 3 3 ∧
        lookup (add_to_board (new_board (3, 3)) [(2, 0), (2, 1), (2, 2), (3, 1)]) (3, 1) =
          some ALIVE) ∧
      aliveNeighbours (add_to_board (new_board (3, 3)) [(2, 0), (2, 1), (2, 2), (3, 1)])
          (2, 1) = 3 ∧
      aliveNeighbours (add_to_board (new_board (3, 3)) [(2, 0), (2, 1), (2, 2)]) (2, 1) = 2 ∧
      lookup
          (next_iteration (add_to_board (new_board (3, 3)) [(2, 0), (2, 1), (2, 2), (3, 1)])
            (3, 3)) (3, 1) = some ALIVE ∧
      (3, 1) ∈ keysOf
        (next_iteration (add_to_board (new_board (3, 3)) [(2, 0), (2, 1), (2, 2), (3, 1)])
          (3, 3)) := by
  refine ⟨fun b pattern p hp => lookup_add_to_board_mem pattern b hp, ?_⟩
  refine ⟨⟨by decide, by decide⟩, by decide, by decide, by decide, by decide⟩

/-- Witness for C10: the out-of-rectangle seed point (3,1) itself. -/
theorem add_to_board_out_of_rect_witness :
    lookup (add_to_board (new_board (3, 3)) [(2, 0), (2, 1), (2, 2), (3, 1)]) (3, 1) =
      some ALIVE :=
  add_to_board_out_of_rect.1 (new_board (3, 3)) [(2, 0), (2, 1), (2, 2), (3, 1)] (3, 1)
    (by decide)

theorem lookup_of_mem_nodup {b : Board} (hnd : (keysOf b).Nodup) {p : Coord × ℕ}
    (hp : p ∈ b) : lookup b p.1 = some p.2 := by
  induction b with
  | nil => exact absurd hp (List.not_mem_nil _)
  | cons q rest ih =>
    have hnd1 : (keysOf rest).Nodup := (List.nodup_cons.mp hnd).2
    have hq : q.1 ∉ keysOf rest := (List.nodup_cons.mp hnd).1
    rcases List.mem_cons.mp hp with h | h
    · subst h
      simp [lookup]
    · have hne : q.1 ≠ p.1 := by
        intro hh
        apply hq
        rw [hh]
        exact List.mem_map_of_mem Prod.fst h
      simp only [lookup]
      rw [if_neg hne]
      exact ih hnd1 h

theorem next_iteration_value_cases {b : Board} {w h : ℕ} (hwf : WellFormed b w h)
    {c : Coord} (hc : inRect c w h) :
    lookup (next_iteration b (w, h)) c = some DEAD ∨
      lookup (next_iteration b (w, h)) c = some ALIVE := by
  obtain ⟨v, hv⟩ := lookup_isSome_of_mem ((wellFormed_keys hwf c).mpr hc)
  rw [next_iteration_lookup_mem hwf.1 hv hc]
  split_ifs <;> simp

theorem next_iteration_wellFormed {b : Board} {w h : ℕ} (hwf : WellFormed b w h) :
    WellFormed (next_iteration b (w, h)) w h := by
  have hkeq := keysOf_next_iteration (b := b) (fun c hc => hwf.2.1 c hc)
  refine ⟨?_, ?_, ?_, ?_⟩
  · rw [hkeq]
    exact nodup_keysOf_new_board w h
  · intro c hc
    rw [hkeq] at hc
    exact (mem_keysOf_new_board w h c).mp hc
  · intro c hc
    rw [hkeq]
    exact hc
  · intro p hp
    have hnd : (keysOf (next_iteration b (w, h))).Nodup := by
      rw [hkeq]
      exact nodup_keysOf_new_board w h
    have hl : lookup (next_iteration b (w, h)) p.1 = some p.2 := lookup_of_mem_nodup hnd hp
    have hrect : inRect p.1 w h := by
      rw [← mem_keysOf_new_board w h, ← hkeq]
      exact List.mem_map_of_mem Prod.fst hp
    rcases next_iteration_value_cases hwf hrect with h0 | h1
    · left
      rw [hl] at h0
      exact Option.some_injective _ h0
    · right
      rw [hl] at h1
      exact Option.some_injective _ h1

theorem next_iteration_lookup_outside {b : Board} {w h : ℕ} (hwf : WellFormed b w h)
    {c : Coord} (hcr : ¬inRect c w h) :
    lookup (next_iteration b (w, h)) c = none ∧ lookup b c = none := by
  have hkeq := keysOf_next_iteration (b := b) (fun c2 hc2 => hwf.2.1 c2 hc2)
  constructor
  · rw [lookup_eq_none, hkeq, mem_keysOf_new_board]
    exact hcr
  · rw [lookup_eq_none]
    intro hm
    exact hcr ((wellFormed_keys hwf c).mp hm)

theorem aliveNeighbours_of_aliveSet {b : Board} {A : List Coord} (ha : AliveSetIs b A)
    (c : Coord) :
    aliveNeighbours b c = (get_neighbours c).countP (fun nb => decide (nb ∈ A)) := by
  rw [aliveNeighbours_eq_countP]
  apply List.countP_congr
  intro nb _
  simp only [decide_eq_true_eq]
  exact aliveSetIs_lookup ha nb

theorem block_count_shift (x y a b : ℤ) :
    (get_neighbours (a, b)).countP (fun nb => decide (nb ∈ blockCells x y)) =
      (get_neighbours (a - x, b - y)).countP (fun nb => decide (nb ∈ blockCells 0 0)) := by
  simp only [get_neighbours, List.countP_cons, List.countP_nil, blockCells, List.mem_cons,
    List.not_mem_nil, or_false, Prod.mk.injEq, decide_eq_true_eq]
  repeat first
  | rfl
  | (apply congrArg₂ (· + ·))
  | (exact if_congr (by omega) rfl rfl)

theorem mem_blockCells_iff (x y a b : ℤ) :
    ((a, b) : Coord) ∈ blockCells x y ↔
      (a - x = 0 ∨ a - x = 1) ∧ (b - y = 0 ∨ b - y = 1) := by
  simp only [blockCells, List.mem_cons, List.not_mem_nil, or_false, Prod.mk.injEq]
  omega

theorem block_count00 (u v : ℤ) :
    ((u = 0 ∨ u = 1) ∧ (v = 0 ∨ v = 1) →
      (get_neighbours (u, v)).countP (fun nb => decide (nb ∈ blockCells 0 0)) = 3) ∧
    (¬((u = 0 ∨ u = 1) ∧ (v = 0 ∨ v = 1)) →
      (get_neighbours (u, v)).countP (fun nb => decide (nb ∈ blockCells 0 0)) ≤ 2) := by
  by_cases hu : -1 ≤ u ∧ u ≤ 2 ∧ -1 ≤ v ∧ v ≤ 2
  · obtain ⟨h1, h2, h3, h4⟩ := hu
    constructor
    · intro hm
      interval_cases u <;> interval_cases v <;> first | (exfalso; omega) | decide
    · intro hm
      interval_cases u <;> interval_cases v <;> first | (exfalso; omega) | decide
  · constructor
    · intro hm
      exfalso
      omega
    · intro hm
      have hz : (get_neighbours (u, v)).countP
          (fun nb => decide (nb ∈ blockCells 0 0)) = 0 := by
        rw [List.countP_eq_zero]
        intro nb hnb
        simp only [get_neighbours, List.mem_cons, List.not_mem_nil, or_false] at hnb
        rcases hnb with h | h | h | h | h | h | h | h <;> subst h <;>
          simp only [blockCells, List.mem_cons, List.not_mem_nil, or_false, Prod.mk.injEq,
            decide_eq_true_eq] <;> omega
      rw [hz]
      omega

theorem block_count_of_mem {x y : ℤ} {c : Coord} (hc : c ∈ blockCells x y) :
    (get_neighbours c).countP (fun nb => decide (nb ∈ blockCells x y)) = 3 := by
  obtain ⟨a, b⟩ := c
  rw [block_count_shift]
  refine (block_count00 (a - x) (b - y)).1 ?_
  rw [mem_blockCells_iff] at hc
  omega

theorem block_count_of_not_mem {x y : ℤ} {c : Coord} (hc : c ∉ blockCells x y) :
    (get_neighbours c).countP (fun nb => decide (nb ∈ blockCells x y)) ≤ 2 := by
  obtain ⟨a, b⟩ := c
  rw [block_count_shift]
  refine (block_count00 (a - x) (b - y)).2 ?_
  rw [mem_blockCells_iff] at hc
  omega

/-- C8: a well-formed board whose alive cells are exactly a 2x2 block
inside the rectangle is a fixed point of advance: the advanced board is
equal (as a Python dict) to the input. -/
theorem block_still_life (w h : ℕ) (x y : ℤ) (b : Board)
    (hwf : WellFormed b w h) (ha : AliveSetIs b (blockCells x y))
    (hx1 : 0 ≤ x) (hx2 : x + 2 ≤ (w : ℤ)) (hy1 : 0 ≤ y) (hy2 : y + 2 ≤ (h : ℤ)) :
    boardEq (next_iteration b (w, h)) b := by
  rw [boardEq_iff]
  intro c
  by_cases hcr : inRect c w h
  · obtain ⟨v, hv⟩ := lookup_isSome_of_mem ((wellFormed_keys hwf c).mpr hcr)
    rw [hv, next_iteration_lookup_mem hwf.1 hv hcr, aliveNeighbours_of_aliveSet ha]
    by_cases hcb : c ∈ blockCells x y
    · have hva : v = ALIVE := by
        have hal := (aliveSetIs_lookup ha c).mpr hcb
        rw [hv] at hal
        exact Option.some_injective _ hal
      rw [block_count_of_mem hcb, hva]
      simp [ALIVE, DEAD]
    · have hvd : v = DEAD := by
        rcases hwf.2.2.2 (c, v) (lookup_mem hv) with h0 | h1
        · exact h0
        · exfalso
          apply hcb
          apply (aliveSetIs_lookup ha c).mp
          rw [hv]
          exact congrArg some h1
      have hcnt := block_count_of_not_mem hcb
      rw [hvd]
      simp only [DEAD, ALIVE]
      split_ifs <;> first | rfl | omega | simp_all
  · obtain ⟨h1, h2⟩ := next_iteration_lookup_outside hwf hcr
    rw [h1, h2]

/-- Witness for C8: a 4x4 board with the block at (1,1). -/
theorem block_still_life_witness :
    boardEq
      (next_iteration (add_to_board (new_board (4, 4)) [(1, 1), (2, 1), (1, 2), (2, 2)])
        (4, 4))
      (add_to_board (new_board (4, 4)) [(1, 1), (2, 1), (1, 2), (2, 2)]) :=
  block_still_life 4 4 1 1 (add_to_board (new_board (4, 4)) [(1, 1), (2, 1), (1, 2), (2, 2)])
    (by decide) (by decide) (by decide) (by decide) (by decide) (by decide)

theorem diag_count_shift (x y a b : ℤ) :
    (get_neighbours (a, b)).countP (fun nb => decide (nb ∈ diagCells x y)) =
      (get_neighbours (a - x, b - y)).countP (fun nb => decide (nb ∈ diagCells 0 0)) := by
  simp only [get_neighbours, List.countP_cons, List.countP_nil, diagCells, List.mem_cons,
    List.not_mem_nil, or_false, Prod.mk.injEq, decide_eq_true_eq]
  repeat first
  | rfl
  | (apply congrArg₂ (· + ·))
  | (exact if_congr (by omega) rfl rfl)

theorem mem_diagCells_iff (x y a b : ℤ) :
    ((a, b) : Coord) ∈ diagCells x y ↔
      (a - x = 0 ∧ b - y = 0) ∨ (a - x = 1 ∧ b - y = 1) ∨ (a - x = 2 ∧ b - y = 2) := by
  simp only [diagCells, List.mem_cons, List.not_mem_nil, or_false, Prod.mk.injEq]
  omega

theorem diag_count00 (u v : ℤ) :
    (get_neighbours (u, v)).countP (fun nb => decide (nb ∈ diagCells 0 0)) ≤ 2 ∧
      ((u = 0 ∧ v = 0) ∨ (u = 1 ∧ v = 1) ∨ (u = 2 ∧ v = 2) →
        ((get_neighbours (u, v)).countP (fun nb => decide (nb ∈ diagCells 0 0)) = 2 ↔
          u = 1 ∧ v = 1)) := by
  by_cases hu : -1 ≤ u ∧ u ≤ 3 ∧ -1 ≤ v ∧ v ≤ 3
  · obtain ⟨h1, h2, h3, h4⟩ := hu
    constructor
    · interval_cases u <;> interval_cases v <;> decide
    · intro hm
      interval_cases u <;> interval_cases v <;> first | (exfalso; omega) | decide
  · have hz : (get_neighbours (u, v)).countP
        (fun nb => decide (nb ∈ diagCells 0 0)) = 0 := by
      rw [List.countP_eq_zero]
      intro nb hnb
      simp only [get_neighbours, List.mem_cons, List.not_mem_nil, or_false] at hnb
      rcases hnb with h | h | h | h | h | h | h | h <;> subst h <;>
        simp only [diagCells, List.mem_cons, List.not_mem_nil, or_false, Prod.mk.injEq,
          decide_eq_true_eq] <;> omega
    rw [hz]
    constructor
    · omega
    · intro hm
      exfalso
      omega

theorem diag_count_le {x y : ℤ} (c : Coord) :
    (get_neighbours c).countP (fun nb => decide (nb ∈ diagCells x y)) ≤ 2 := by
  obtain ⟨a, b⟩ := c
  rw [diag_count_shift]
  exact (diag_count00 (a - x) (b - y)).1

theorem diag_count_eq_two_iff {x y : ℤ} {c : Coord} (hc : c ∈ diagCells x y) :
    (get_neighbours c).countP (fun nb => decide (nb ∈ diagCells x y)) = 2 ↔
      c = (x + 1, y + 1) := by
  obtain ⟨a, b⟩ := c
  rw [mem_diagCells_iff] at hc
  rw [diag_count_shift, (diag_count00 (a - x) (b - y)).2 (by omega), Prod.mk.injEq]
  omega

theorem single_count_shift (x y a b : ℤ) :
    (get_neighbours (a, b)).countP (fun nb => decide (nb ∈ ([(x, y)] : List Coord))) =
      (get_neighbours (a - x, b - y)).countP
        (fun nb => decide (nb ∈ ([(0, 0)] : List Coord))) := by
  simp only [get_neighbours, List.countP_cons, List.countP_nil, List.mem_singleton,
    Prod.mk.injEq, decide_eq_true_eq]
  repeat first
  | rfl
  | (apply congrArg₂ (· + ·))
  | (exact if_congr (by omega) rfl rfl)

theorem single_count00 (u v : ℤ) :
    (get_neighbours (u, v)).countP (fun nb => decide (nb ∈ ([(0, 0)] : List Coord))) ≤ 1 := by
  by_cases hu : -1 ≤ u ∧ u ≤ 1 ∧ -1 ≤ v ∧ v ≤ 1
  · obtain ⟨h1, h2, h3, h4⟩ := hu
    interval_cases u <;> interval_cases v <;> decide
  · have hz : (get_neighbours (u, v)).countP
        (fun nb => decide (nb ∈ ([(0, 0)] : List Coord))) = 0 := by
      rw [List.countP_eq_zero]
      intro nb hnb
      simp only [get_neighbours, List.mem_cons, List.not_mem_nil, or_false] at hnb
      rcases hnb with h | h | h | h | h | h | h | h <;> subst h <;>
        simp only [List.mem_singleton, Prod.mk.injEq, decide_eq_true_eq] <;> omega
    rw [hz]
    omega

theorem single_count_le {p : Coord} (c : Coord) :
    (get_neighbours c).countP (fun nb => decide (nb ∈ ([p] : List Coord))) ≤ 1 := by
  obtain ⟨x, y⟩ := p
  obtain ⟨a, b⟩ := c
  rw [single_count_shift]
  exact single_count00 (a - x) (b - y)

/-- Amended C4: on a well-formed board whose alive cells are exactly a
three-cell diagonal line placed away from the rectangle's boundaries,
advance yields the board with exactly the centre cell alive, advancing
twice yields the fully dead board, and in particular advance does not
return the original board — the diagonal dies out instead of
oscillating. -/
theorem diag_line_dies (w h : ℕ) (x y : ℤ) (b : Board)
    (hwf : WellFormed b w h) (ha : AliveSetIs b (diagCells x y))
    (hx1 : 1 ≤ x) (hx2 : x + 4 ≤ (w : ℤ)) (hy1 : 1 ≤ y) (hy2 : y + 4 ≤ (h : ℤ)) :
    AliveSetIs (next_iteration b (w, h)) [(x + 1, y + 1)] ∧
      (∀ c, lookup (next_iteration (next_iteration b (w, h)) (w, h)) c ≠ some ALIVE) ∧
      ¬boardEq (next_iteration b (w, h)) b := by
  have hwf1 : WellFormed (next_iteration b (w, h)) w h := next_iteration_wellFormed hwf
  have hlook : ∀ c : Coord, inRect c w h →
      (lookup (next_iteration b (w, h)) c = some ALIVE ↔ c = (x + 1, y + 1)) := by
    intro c hcr
    obtain ⟨v, hv⟩ := lookup_isSome_of_mem ((wellFormed_keys hwf c).mpr hcr)
    rw [next_iteration_lookup_mem hwf.1 hv hcr, aliveNeighbours_of_aliveSet ha]
    by_cases hcd : c ∈ diagCells x y
    · have hva : v = ALIVE := by
        have hal := (aliveSetIs_lookup ha c).mpr hcd
        rw [hv] at hal
        exact Option.some_injective _ hal
      have hle := diag_count_le (x := x) (y := y) c
      rw [hva]
      simp only [ALIVE, DEAD]
      constructor
      · intro heq
        rw [← diag_count_eq_two_iff hcd]
        split_ifs at heq <;> first | omega | simp_all
      · intro heq
        have h2 := (diag_count_eq_two_iff hcd).mpr heq
        rw [if_pos (by omega), if_pos (by omega)]
    · have hvd : v = DEAD := by
        rcases hwf.2.2.2 (c, v) (lookup_mem hv) with h0 | h1
        · exact h0
        · exfalso
          apply hcd
          apply (aliveSetIs_lookup ha c).mp
          rw [hv]
          exact congrArg some h1
      have hle := diag_count_le (x := x) (y := y) c
      have hnc : c ≠ (x + 1, y + 1) := by
        intro hcc
        apply hcd
        rw [hcc]
        show (x + 1, y + 1) ∈ [(x, y), (x + 1, y + 1), (x + 2, y + 2)]
        exact List.mem_cons_of_mem _ (List.mem_cons_self _ _)
      rw [hvd]
      simp only [DEAD, ALIVE]
      constructor
      · intro heq
        exfalso
        split_ifs at heq <;> first | omega | simp_all
      · intro heq
        exact absurd heq hnc
  have hgen1 : AliveSetIs (next_iteration b (w, h)) [(x + 1, y + 1)] := by
    constructor
    · intro c hc
      have hcr : inRect c w h := by
        rcases wellFormed_keys hwf1 c with hiff
        exact hiff.mp hc
      rw [hlook c hcr, List.mem_singleton]
    · intro c hc
      rw [List.mem_singleton] at hc
      subst hc
      have hcr : inRect (x + 1, y + 1) w h := by
        show 0 ≤ x + 1 ∧ x + 1 < (w : ℤ) ∧ 0 ≤ y + 1 ∧ y + 1 < (h : ℤ)
        omega
      exact (hlook _ hcr).mpr rfl
  refine ⟨hgen1, ?_, ?_⟩
  · intro c
    by_cases hcr : inRect c w h
    · obtain ⟨v, hv⟩ :=
        lookup_isSome_of_mem ((wellFormed_keys hwf1 c).mpr hcr)
      rw [next_iteration_lookup_mem hwf1.1 hv hcr, aliveNeighbours_of_aliveSet hgen1]
      have hle := single_count_le (p := ((x + 1, y + 1) : Coord)) c
      rcases hwf1.2.2.2 (c, v) (lookup_mem hv) with h0 | h1
      · have hvd : v = DEAD := h0
        rw [hvd]
        simp only [DEAD, ALIVE]
        split_ifs <;> simp <;> omega
      · have hva : v = ALIVE := h1
        rw [hva]
        simp only [DEAD, ALIVE]
        split_ifs <;> simp <;> omega
    · rw [(next_iteration_lookup_outside hwf1 hcr).1]
      intro hh
      exact Option.noConfusion hh
  · intro heq
    have hxy : lookup b (x, y) = some ALIVE :=
      (aliveSetIs_lookup ha (x, y)).mpr (List.mem_cons_self _ _)
    have hg1 : lookup (next_iteration b (w, h)) (x, y) = some ALIVE := by
      rw [(boardEq_iff _ _).mp heq (x, y)]
      exact hxy
    have := (aliveSetIs_lookup hgen1 (x, y)).mp hg1
    rw [List.mem_singleton, Prod.mk.injEq] at this
    omega

/-- Counterexample to C4 as stated: for the well-formed 6x6 board whose
alive cells are the diagonal (1,1), (2,2), (3,3) — away from the
boundaries — applying advance twice does not return a board equal to
the original. -/
theorem diag_line_not_period_two :
    ¬boardEq
      (next_iteration
        (next_iteration (add_to_board (new_board (6, 6)) [(1, 1), (2, 2), (3, 3)]) (6, 6))
        (6, 6))
      (add_to_board (new_board (6, 6)) [(1, 1), (2, 2), (3, 3)]) := by decide

theorem readRef_eq {s : Store} {r : ℕ} {b : Board} (h : s[r]? = some b) :
    readRef s r = b := by
  rw [readRef, h]
  rfl

theorem next_iterationRef_loop (br nr : ℕ) (hne : nr ≠ br) (b : Board)
    (items : List (Coord × ℕ)) :
    ∀ (st : Store) (acc : Board), st[br]? = some b → st[nr]? = some acc →
      (items.foldl (life_stepRef br nr) st)[br]? = some b ∧
      (items.foldl (life_stepRef br nr) st)[nr]? =
        some (items.foldl (life_step b) acc) := by
  induction items with
  | nil =>
    intro st acc h1 h2
    exact ⟨h1, h2⟩
  | cons ca rest ih =>
    intro st acc h1 h2
    rw [List.foldl_cons, List.foldl_cons]
    have hnlt : nr < st.length := by
      rcases List.getElem?_eq_some.mp h2 with ⟨hlt, _⟩
      exact hlt
    have hread : readRef st br = b := readRef_eq h1
    have hreadn : readRef st nr = acc := readRef_eq h2
    apply ih
    · unfold life_stepRef setItemRef writeRef
      rw [hread]
      split_ifs <;> first | exact h1 | (rw [List.getElem?_set_ne hne]; exact h1)
    · unfold life_stepRef setItemRef writeRef life_step
      rw [hread, hreadn]
      split_ifs <;> first | (rw [List.getElem?_set_self hnlt]) | exact h2

/-- C9: the heap-level advance does not mutate the input dict — after
the call the input reference holds exactly the mapping it held before
the call — and the returned board is a newly allocated dict at a
reference distinct from the input's, holding exactly the pure
next_iteration of the input. -/
theorem next_iterationRef_no_mutation (s : Store) (br : ℕ) (sz : ℕ × ℕ)
    (hbr : br < s.length) :
    readRef (next_iterationRef s br sz).1 br = readRef s br ∧
      (next_iterationRef s br sz).2 ≠ br ∧
      readRef (next_iterationRef s br sz).1 (next_iterationRef s br sz).2 =
        next_iteration (readRef s br) sz := by
  have hne : s.length ≠ br := by omega
  have h1 : (s ++ [new_board sz])[br]? = some (readRef s br) := by
    rw [List.getElem?_append_left hbr, readRef, List.getElem?_eq_getElem hbr]
    rfl
  have h2 : (s ++ [new_board sz])[s.length]? = some (new_board sz) :=
    List.getElem?_concat_length s (new_board sz)
  have hitems : readRef (s ++ [new_board sz]) br = readRef s br := readRef_eq h1
  obtain ⟨hb, hn⟩ := next_iterationRef_loop br s.length hne (readRef s br)
    (readRef (s ++ [new_board sz]) br) (s ++ [new_board sz]) (new_board sz) h1 h2
  refine ⟨readRef_eq hb, hne, ?_⟩
  show readRef
      (List.foldl (life_stepRef br (List.length s)) (s ++ [new_board sz])
        (readRef (s ++ [new_board sz]) br))
      (List.length s) = next_iteration (readRef s br) sz
  rw [readRef_eq hn, hitems]
  rfl

/-- Witness for C9: a one-dict heap holding a seeded 2x2 board. -/
theorem next_iterationRef_no_mutation_witness :
    readRef (next_iterationRef [add_to_board (new_board (2, 2)) [(0, 0)]] 0 (2, 2)).1 0 =
        readRef [add_to_board (new_board (2, 2)) [(0, 0)]] 0 ∧
      (next_iterationRef [add_to_board (new_board (2, 2)) [(0, 0)]] 0 (2, 2)).2 ≠ 0 ∧
      readRef (next_iterationRef [add_to_board (new_board (2, 2)) [(0, 0)]] 0 (2, 2)).1
          (next_iterationRef [add_to_board (new_board (2, 2)) [(0, 0)]] 0 (2, 2)).2 =
        next_iteration (readRef [add_to_board (new_board (2, 2)) [(0, 0)]] 0) (2, 2) :=
  next_iterationRef_no_mutation [add_to_board (new_board (2, 2)) [(0, 0)]] 0 (2, 2)
    (by decide)

/-- Witness for the amended C4: the 6x6 board with the diagonal at
(1,1). -/
theorem diag_line_dies_witness :
    AliveSetIs
        (next_iteration (add_to_board (new_board (6, 6)) [(1, 1), (2, 2), (3, 3)]) (6, 6))
        [(2, 2)] ∧
      (∀ c,
        lookup
            (next_iteration
              (next_iteration (add_to_board (new_board (6, 6)) [(1, 1), (2, 2), (3, 3)])
                (6, 6)) (6, 6)) c ≠ some ALIVE) ∧
      ¬boardEq
        (next_iteration (add_to_board (new_board (6, 6)) [(1, 1), (2, 2), (3, 3)]) (6, 6))
        (add_to_board (new_board (6, 6)) [(1, 1), (2, 2), (3, 3)]) :=
  diag_line_dies 6 6 1 1 (add_to_board (new_board (6, 6)) [(1, 1), (2, 2), (3, 3)])
    (by decide) (by decide) (by decide) (by decide) (by decide) (by decide)

end Conway
